import Mathlib

/-
Verification of calcularPi_GregoryLeibniz.py: a time-bounded parallel
Gregory-Leibniz approximation of pi.

Embedding conventions:
- Python ints are modelled as Int (Nat for the iteration counter, which the
  code only ever increases from 0), Python floats as exact rationals.
- time.time() readings are modelled by an explicit clock: the reading taken
  at `start_time = time.time()` is the parameter t0, and each iteration of
  the while loop consumes one pair (t1, t2) from a list: t1 is the reading
  of the `while` guard, t2 the reading of the post-batch `if ... break`
  check.  When the list of readings is exhausted before the loop exits, the
  run is modelled as `none` (the observed readings do not determine a
  result).
- mp.Pool(processes=n) raises ValueError for n < 1 before any work; this is
  the semantics of the library call on line 24 and is modelled with Except.
- pool.starmap returns the list of worker results in the order of `ranges`.
- The run result additionally records, as its third component, the list of
  `ranges` values built on line 27 for each executed batch (the trace of
  chunk ranges issued), which several spec properties are about.
-/

/-- One term of the series, the loop body expression of
gregory_leibniz_worker (line 11 of the source): (-1)**i / (2*i + 1).
Python's (-1)**i for a negative int i equals 1/((-1)**(-i)), which is the
same value zpow gives. -/
def glTerm (i : ℤ) : ℚ := (-1) ^ i / (2 * (i : ℚ) + 1)

/-- Model of Python's range(start, stop) over ints: the increasing list of
integers from start (inclusive) to stop (exclusive), empty for
stop ≤ start. -/
def pyRange (start stop : ℤ) : List ℤ :=
  (List.range (stop - start).toNat).map (fun (k : ℕ) => start + (k : ℤ))

/-- Embedding of gregory_leibniz_worker (lines 7-12): left fold over
range(start, end) starting from 0, adding (-1)**i / (2*i + 1) at each
index in increasing order. -/
def gregory_leibniz_worker (start stop : ℤ) : ℚ :=
  (pyRange start stop).foldl (fun acc i => acc + glTerm i) 0

/-- Embedding of the local constant chunk_size = 1000000 (line 19). -/
def chunk_size : ℕ := 1000000

/-- Embedding of the batch range construction on lines 27-28:
ranges = [(i * chunk_size, (i + 1) * chunk_size) for i in range(num_processes)].
Note the ranges do not depend on anything but num_processes, so every batch
of one run issues this same list. -/
def ranges (num_processes : ℤ) : List (ℤ × ℤ) :=
  (List.range num_processes.toNat).map
    (fun (i : ℕ) => ((i : ℤ) * (chunk_size : ℤ), ((i : ℤ) + 1) * (chunk_size : ℤ)))

/-- Value assigned to pi_value on line 34 in every iteration:
sum(pool.starmap(gregory_leibniz_worker, ranges)) * 4.  Python's sum is a
left fold of + starting from 0 over the in-order result list. -/
def batch_pi (num_processes : ℤ) : ℚ :=
  (((ranges num_processes).map
      (fun r => gregory_leibniz_worker r.1 r.2)).foldl (fun a b => a + b) 0) * 4

/-- Trace of the chunk-range batches issued during a run, in order. -/
abbrev Trace := List (List (ℤ × ℤ))

/-- Embedding of the while loop on lines 25-38.  State: total_iterations,
pi_value, and the trace of issued batches.  Each iteration consumes one
pair of clock readings: t1 for the while guard (line 25), t2 for the
post-batch deadline check (line 37).  The guard failing returns the current
state; otherwise one batch runs (lines 27-35), then the line-37 check
either breaks out or continues the loop. -/
def piLoop (t0 limit : ℚ) (num_processes : ℤ) :
    List (ℚ × ℚ) → ℕ → ℚ → Trace → Option (ℕ × ℚ × Trace)
  | [], _, _, _ => none
  | (t1, t2) :: rest, total, piv, tr =>
    if t1 - t0 < limit then
      let piv2 := batch_pi num_processes
      let total2 := total + chunk_size * num_processes.toNat
      let tr2 := tr ++ [ranges num_processes]
      if limit ≤ t2 - t0 then some (total2, piv2, tr2)
      else piLoop t0 limit num_processes rest total2 piv2 tr2
    else some (total, piv, tr)

/-- Embedding of calculate_pi_parallel (lines 14-40).  t0 is the reading
taken on line 22; clock holds the subsequent readings pairwise.  The
mp.Pool construction on line 24 raises ValueError when num_processes < 1,
before any chunk is evaluated; otherwise the loop runs and the pair
(total_iterations, pi_value) is returned together with the issued-range
trace. -/
def calculate_pi_parallel (num_processes : ℤ) (time_limit : ℚ)
    (t0 : ℚ) (clock : List (ℚ × ℚ)) : Except String (Option (ℕ × ℚ × Trace)) :=
  if num_processes < 1 then
    Except.error "Number of processes must be at least 1"
  else
    Except.ok (piLoop t0 time_limit num_processes clock 0 0 [])

/-- Default of the time_limit parameter in the signature on line 14. -/
def time_limit_default : ℚ := 60

/-
Helper lemmas about the worker: closed forms, additivity, positivity.
-/

lemma foldl_add_glTerm (l : List ℤ) (a : ℚ) :
    l.foldl (fun acc i => acc + glTerm i) a = a + (l.map glTerm).sum := by
  induction l generalizing a with
  | nil => simp
  | cons x xs ih => simp [ih, add_assoc]

lemma worker_eq_map_sum (a b : ℤ) :
    gregory_leibniz_worker a b = ((pyRange a b).map glTerm).sum := by
  simp [gregory_leibniz_worker, foldl_add_glTerm]

lemma pyRange_eq_nil (a b : ℤ) (h : b ≤ a) : pyRange a b = [] := by
  have : (b - a).toNat = 0 := by omega
  simp [pyRange, this]

lemma pyRange_succ (a b : ℤ) (h : a ≤ b) :
    pyRange a (b + 1) = pyRange a b ++ [b] := by
  have h1 : (b + 1 - a).toNat = (b - a).toNat + 1 := by omega
  have h2 : a + (((b - a).toNat : ℕ) : ℤ) = b := by omega
  simp [pyRange, h1, List.range_succ, h2]
  omega

lemma Ico_succ_int (a b : ℤ) (h : a ≤ b) :
    Finset.Ico a (b + 1) = insert b (Finset.Ico a b) := by
  ext x
  simp only [Finset.mem_Ico, Finset.mem_insert]
  omega

lemma worker_sum_Ico_aux (a : ℤ) (n : ℕ) :
    gregory_leibniz_worker a (a + (n : ℤ)) = ∑ i in Finset.Ico a (a + (n : ℤ)), glTerm i := by
  induction n with
  | zero =>
      simp [worker_eq_map_sum, pyRange_eq_nil a a le_rfl]
  | succ m ih =>
      have hm : a ≤ a + (m : ℤ) := by omega
      have hcast : a + ((m + 1 : ℕ) : ℤ) = (a + (m : ℤ)) + 1 := by push_cast; ring
      rw [hcast, worker_eq_map_sum, pyRange_succ a (a + (m : ℤ)) hm, List.map_append,
        List.sum_append, ← worker_eq_map_sum, ih, Ico_succ_int a (a + (m : ℤ)) hm,
        Finset.sum_insert (by simp)]
      simp [add_comm]

lemma worker_sum_Ico (a b : ℤ) :
    gregory_leibniz_worker a b = ∑ i in Finset.Ico a b, glTerm i := by
  rcases le_or_lt a b with h | h
  · have hb : b = a + ((b - a).toNat : ℤ) := by omega
    rw [hb]
    exact worker_sum_Ico_aux a (b - a).toNat
  · rw [worker_eq_map_sum, pyRange_eq_nil a b (le_of_lt h),
      Finset.Ico_eq_empty (by omega)]
    simp

lemma worker_add (a b c : ℤ) (hab : a ≤ b) (hbc : b ≤ c) :
    gregory_leibniz_worker a c
      = gregory_leibniz_worker a b + gregory_leibniz_worker b c := by
  rw [worker_sum_Ico, worker_sum_Ico, worker_sum_Ico,
    ← Finset.sum_union (Finset.Ico_disjoint_Ico_consecutive a b c),
    Finset.Ico_union_Ico_eq_Ico hab hbc]

lemma denom_ne_zero (i : ℤ) : (2 * (i : ℚ) + 1) ≠ 0 := by
  have h : ((2 * i + 1 : ℤ) : ℚ) = 2 * (i : ℚ) + 1 := by push_cast; ring
  rw [← h, Ne, Int.cast_eq_zero]
  omega

lemma glTerm_even_eq (i : ℤ) (h : Even i) : glTerm i = 1 / (2 * (i : ℚ) + 1) := by
  rw [glTerm, Even.neg_one_zpow h]

lemma glTerm_odd_eq (i : ℤ) (h : Odd i) : glTerm i = -(1 / (2 * (i : ℚ) + 1)) := by
  rw [glTerm, Odd.neg_one_zpow h, neg_div, one_div]

lemma glTerm_pair_pos (i : ℤ) (h0 : 0 ≤ i) (he : Even i) :
    0 < glTerm i + glTerm (i + 1) := by
  have hi : (0 : ℚ) ≤ (i : ℚ) := by exact_mod_cast h0
  have hx : (0 : ℚ) < 2 * (i : ℚ) + 1 := by linarith
  have hcast : ((i + 1 : ℤ) : ℚ) = (i : ℚ) + 1 := by push_cast; ring
  have hlt : 1 / (2 * ((i : ℚ) + 1) + 1) < 1 / (2 * (i : ℚ) + 1) :=
    one_div_lt_one_div_of_lt hx (by linarith)
  rw [glTerm_even_eq i he, glTerm_odd_eq (i + 1) (Even.add_one he), hcast]
  linarith

lemma worker_two_chunk_pos (a : ℤ) (h0 : 0 ≤ a) (he : Even a) :
    0 < gregory_leibniz_worker a (a + 2) := by
  have e1 : a + 2 = (a + 1) + 1 := by ring
  have hlist : gregory_leibniz_worker a (a + 2) = glTerm a + glTerm (a + 1) := by
    rw [e1, worker_eq_map_sum, pyRange_succ a (a + 1) (by omega),
      pyRange_succ a a le_rfl, pyRange_eq_nil a a le_rfl]
    simp
  rw [hlist]
  exact glTerm_pair_pos a h0 he

lemma worker_even_len_pos (a : ℤ) (h0 : 0 ≤ a) (he : Even a) :
    ∀ n : ℕ, 0 < n → 0 < gregory_leibniz_worker a (a + 2 * (n : ℤ)) := by
  intro n
  induction n with
  | zero => omega
  | succ m ih =>
      intro _
      rcases Nat.eq_zero_or_pos m with hm | hm
      · subst hm
        have e : a + 2 * ((0 + 1 : ℕ) : ℤ) = a + 2 := by push_cast; ring
        rw [e]
        exact worker_two_chunk_pos a h0 he
      · have heven2 : Even (a + 2 * (m : ℤ)) := by
          exact he.add (even_two_mul _)
        have hsplit : gregory_leibniz_worker a (a + 2 * ((m + 1 : ℕ) : ℤ))
            = gregory_leibniz_worker a (a + 2 * (m : ℤ))
              + gregory_leibniz_worker (a + 2 * (m : ℤ)) (a + 2 * ((m + 1 : ℕ) : ℤ)) := by
          apply worker_add <;> [skip; push_cast] <;> omega
        have e2 : a + 2 * ((m + 1 : ℕ) : ℤ) = (a + 2 * (m : ℤ)) + 2 := by push_cast; ring
        have hpos2 : 0 < gregory_leibniz_worker (a + 2 * (m : ℤ)) (a + 2 * ((m + 1 : ℕ) : ℤ)) := by
          rw [e2]
          exact worker_two_chunk_pos (a + 2 * (m : ℤ)) (by omega) heven2
        have hpos1 := ih hm
        rw [hsplit]
        linarith

set_option maxRecDepth 4000 in
lemma worker_second_chunk_pos :
    0 < gregory_leibniz_worker (chunk_size : ℤ) (2 * (chunk_size : ℤ)) := by
  have he : Even ((chunk_size : ℕ) : ℤ) := ⟨500000, by norm_num [chunk_size]⟩
  have h := worker_even_len_pos (chunk_size : ℤ) (Int.natCast_nonneg _) he 500000 (by norm_num)
  have e : (chunk_size : ℤ) + 2 * ((500000 : ℕ) : ℤ) = 2 * (chunk_size : ℤ) := by
    norm_num [chunk_size]
  exact e ▸ h

/-
Characterization of the loop: any terminating run executes some number B of
batches; the trace is B copies of the (always identical) range list, the
iteration counter grows by B * chunk_size * num_processes, and pi_value is
the value of the last batch (unchanged from the initial value when B = 0).
-/

lemma piLoop_spec (clock : List (ℚ × ℚ)) :
    ∀ (t0 limit : ℚ) (W : ℤ) (total : ℕ) (piv : ℚ) (tr : Trace)
      (res : ℕ × ℚ × Trace),
    piLoop t0 limit W clock total piv tr = some res →
    ∃ B : ℕ, res.2.2 = tr ++ List.replicate B (ranges W) ∧
      res.1 = total + B * (chunk_size * W.toNat) ∧
      res.2.1 = (if B = 0 then piv else batch_pi W) := by
  induction clock with
  | nil =>
      intro t0 limit W total piv tr res h
      simp [piLoop] at h
  | cons p rest ih =>
      intro t0 limit W total piv tr res h
      obtain ⟨t1, t2⟩ := p
      simp only [piLoop] at h
      split_ifs at h with h1 h2
      · -- guard passed, deadline hit after the batch: exactly this one batch
        injection h with h
        refine ⟨1, ?_, ?_, ?_⟩ <;> simp [← h]
      · -- guard passed, loop continues
        obtain ⟨B, hB1, hB2, hB3⟩ := ih t0 limit W _ _ _ res h
        refine ⟨B + 1, ?_, ?_, ?_⟩
        · rw [hB1, List.append_assoc]
          congr 1
        · rw [hB2]
          ring
        · simp [hB3]
      · -- guard failed: zero batches
        injection h with h
        refine ⟨0, ?_, ?_, ?_⟩ <;> simp [← h]

lemma foldl_add_rat (l : List ℚ) (a : ℚ) :
    l.foldl (fun x y => x + y) a = a + l.sum := by
  induction l generalizing a with
  | nil => simp
  | cons x xs ih => simp [ih, add_assoc]

/-
The chunk ranges of one batch tile the interval of indices from 0 to
num_processes * chunk_size, so the batch value is 4 times the partial sum
of the series over that whole prefix.
-/

lemma ranges_map_sum (n : ℕ) :
    (((List.range n).map
        (fun (i : ℕ) => gregory_leibniz_worker ((i : ℤ) * (chunk_size : ℤ))
          (((i : ℤ) + 1) * (chunk_size : ℤ)))).sum : ℚ)
      = gregory_leibniz_worker 0 ((n : ℤ) * (chunk_size : ℤ)) := by
  induction n with
  | zero =>
      simp [worker_eq_map_sum, pyRange_eq_nil 0 0 le_rfl]
  | succ m ih =>
      rw [List.range_succ, List.map_append, List.sum_append, ih]
      simp only [List.map_cons, List.map_nil, List.sum_cons, List.sum_nil, add_zero]
      have hC : (0 : ℤ) ≤ (chunk_size : ℤ) := Int.natCast_nonneg _
      have hm : (0 : ℤ) ≤ (m : ℤ) := Int.natCast_nonneg _
      have hsplit := worker_add 0 ((m : ℤ) * (chunk_size : ℤ))
        (((m : ℤ) + 1) * (chunk_size : ℤ)) (by positivity) (by nlinarith)
      have hcast : ((m + 1 : ℕ) : ℤ) = (m : ℤ) + 1 := by push_cast; ring
      rw [hcast, ← hsplit]

lemma batch_pi_eq (W : ℤ) (hW : 0 ≤ W) :
    batch_pi W = 4 * gregory_leibniz_worker 0 (W * (chunk_size : ℤ)) := by
  have hmap : (ranges W).map (fun r => gregory_leibniz_worker r.1 r.2)
      = (List.range W.toNat).map
          (fun (i : ℕ) => gregory_leibniz_worker ((i : ℤ) * (chunk_size : ℤ))
            (((i : ℤ) + 1) * (chunk_size : ℤ))) := by
    rw [ranges, List.map_map]
    rfl
  have hW' : ((W.toNat : ℕ) : ℤ) = W := by omega
  rw [batch_pi, hmap, foldl_add_rat, zero_add, ranges_map_sum, hW', mul_comm]

lemma batch_pi_one : batch_pi 1 = 4 * gregory_leibniz_worker 0 (chunk_size : ℤ) := by
  have h := batch_pi_eq 1 (by omega)
  rwa [one_mul] at h

/-- Modelled from the spec (section 4.2, step 3a), for comparison with the
code's batch construction: the spec prescribes a caller-supplied chunkSize
and a cursor nextIndex, the k-th range of a batch being
[nextIndex + k*chunkSize, nextIndex + (k+1)*chunkSize). -/
def spec_batch_ranges (workerCount chunkSize nextIndex : ℤ) : List (ℤ × ℤ) :=
  (List.range workerCount.toNat).map
    (fun (k : ℕ) => (nextIndex + (k : ℤ) * chunkSize,
      nextIndex + ((k : ℤ) + 1) * chunkSize))

/-
Claim theorems.
-/

/-- C6: for integers start ≥ 0 and end > start, gregory_leibniz_worker
returns the partial sum of the Gregory-Leibniz series over the index range
[start, end): the sum of (-1)^i / (2*i + 1) for i from start to end - 1,
accumulated in increasing index order; the embedding is a pure total
function, so there are no side effects or failure modes. -/
theorem C6_worker_sum (start stop : ℤ) (h0 : 0 ≤ start) (h1 : start < stop) :
    gregory_leibniz_worker start stop
      = ∑ i in Finset.Ico start stop, (-1 : ℚ) ^ i / (2 * (i : ℚ) + 1) := by
  rw [worker_sum_Ico]
  exact Finset.sum_congr rfl (fun i _ => rfl)

/-- Witness for C6 at start = 0, end = 2. -/
theorem C6_witness :
    gregory_leibniz_worker 0 2
      = ∑ i in Finset.Ico (0 : ℤ) 2, (-1 : ℚ) ^ i / (2 * (i : ℚ) + 1) :=
  C6_worker_sum 0 2 (by decide) (by decide)

/-- C7: additivity of the chunk evaluator: for 0 ≤ a ≤ b ≤ c the sum over
[a, c) is exactly the sum over [a, b) plus the sum over [b, c), in the
embedding's exact rational arithmetic. -/
theorem C7_additivity (a b c : ℤ) (h0 : 0 ≤ a) (hab : a ≤ b) (hbc : b ≤ c) :
    gregory_leibniz_worker a c
      = gregory_leibniz_worker a b + gregory_leibniz_worker b c :=
  worker_add a b c hab hbc

/-- Witness for C7 at (a, b, c) = (0, 1, 2). -/
theorem C7_witness :
    gregory_leibniz_worker 0 2
      = gregory_leibniz_worker 0 1 + gregory_leibniz_worker 1 2 :=
  C7_additivity 0 1 2 (by decide) (by decide) (by decide)

/-- C10: totality of the chunk evaluator for every pair of integers: the
denominator 2*i + 1 is never zero for any integer i (so the division in the
loop body cannot fail), and when end ≤ start the loop body never executes
and the function returns 0. -/
theorem C10_total (start stop i : ℤ) (h : stop ≤ start) :
    (2 * (i : ℚ) + 1) ≠ 0 ∧ gregory_leibniz_worker start stop = 0 :=
  ⟨denom_ne_zero i, by rw [worker_eq_map_sum, pyRange_eq_nil start stop h]; rfl⟩

/-- Witness for C10 at start = 5, end = -2, i = -3. -/
theorem C10_witness :
    (2 * ((-3 : ℤ) : ℚ) + 1) ≠ 0 ∧ gregory_leibniz_worker 5 (-2) = 0 :=
  C10_total 5 (-2) (-3) (by decide)

lemma run_expired (W : ℤ) (limit t0 t1 t2 : ℚ) (rest : List (ℚ × ℚ))
    (hW : 1 ≤ W) (h : limit ≤ t1 - t0) :
    calculate_pi_parallel W limit t0 ((t1, t2) :: rest)
      = Except.ok (some (0, 0, [])) := by
  rw [calculate_pi_parallel, if_neg (by omega)]
  simp only [piLoop]
  rw [if_neg (by linarith)]

/-- C3 counterexample: with time_limit = 0 the while guard on line 25 is
checked before the first batch and already fails, so the run returns zero
iterations, contradicting the claim that one full batch always completes
and the result is never zero iterations. -/
theorem C3_counterexample :
    calculate_pi_parallel 1 0 0 [(0, 0)] = Except.ok (some (0, 0, [])) := by
  rw [calculate_pi_parallel, if_neg (by omega)]
  simp only [piLoop]
  rw [if_neg (by norm_num)]

/-- C3 amended: the deadline is checked before every batch, including
before the first one (the while guard on line 25); whenever the limit has
already elapsed at that first check, the run performs no batch and returns
(0, 0) with an empty issued-range trace.  Once a batch is dispatched it
always runs to completion: the deadline is re-checked only after the batch
is folded in (line 37), never mid-batch. -/
theorem C3_deadline_checked_first (W : ℤ) (limit t0 t1 t2 : ℚ)
    (rest : List (ℚ × ℚ)) (hW : 1 ≤ W) (h : limit ≤ t1 - t0) :
    calculate_pi_parallel W limit t0 ((t1, t2) :: rest)
      = Except.ok (some (0, 0, [])) :=
  run_expired W limit t0 t1 t2 rest hW h

/-- Witness for C3 at W = 1, limit = 0, first reading 5. -/
theorem C3_witness :
    calculate_pi_parallel 1 0 0 [(5, 6)] = Except.ok (some (0, 0, [])) :=
  C3_deadline_checked_first 1 0 0 5 6 [] (by decide) (by norm_num)

/-- C4 counterexample: time_limit = -1 is an invalid configuration per the
claim, yet the run does not fail: it returns normally with (0, 0), and a
normal return is not an error. -/
theorem C4_counterexample :
    calculate_pi_parallel 1 (-1) 0 [(0, 0)] = Except.ok (some (0, 0, []))
    ∧ (Except.ok (some ((0 : ℕ), (0 : ℚ), ([] : Trace)))
        : Except String (Option (ℕ × ℚ × Trace)))
      ≠ Except.error "Number of processes must be at least 1" := by
  constructor
  · rw [calculate_pi_parallel, if_neg (by omega)]
    simp only [piLoop]
    rw [if_neg (by norm_num)]
  · intro h
    exact Except.noConfusion h

/-- C4 amended: only num_processes < 1 makes the run fail fast (the
ValueError raised by the pool constructor on line 24, before any chunk is
evaluated); time_limit ≤ 0 does not raise: the run returns (0, 0) normally
having performed no work, and chunk_size is a fixed local constant, not a
caller-suppliable argument, so it can never be invalid. -/
theorem C4_validation (W : ℤ) (limit t0 : ℚ) (clock : List (ℚ × ℚ)) :
    (W < 1 → calculate_pi_parallel W limit t0 clock
        = Except.error "Number of processes must be at least 1")
    ∧ (∀ t1 t2 rest, clock = (t1, t2) :: rest → 1 ≤ W → limit ≤ t1 - t0 →
        calculate_pi_parallel W limit t0 clock
          = Except.ok (some (0, 0, []))) := by
  constructor
  · intro hW
    rw [calculate_pi_parallel, if_pos hW]
  · intro t1 t2 rest hclock hW h
    rw [hclock]
    exact run_expired W limit t0 t1 t2 rest hW h

/-- Witness for C4: W = 0 errors; W = 2 with time_limit = -2 returns
normally with zero work. -/
theorem C4_witness :
    calculate_pi_parallel 0 60 0 []
      = Except.error "Number of processes must be at least 1"
    ∧ calculate_pi_parallel 2 (-2) 0 [(0, 0)] = Except.ok (some (0, 0, [])) :=
  ⟨(C4_validation 0 60 0 []).1 (by decide),
   (C4_validation 2 (-2) 0 [(0, 0)]).2 0 0 [] rfl (by decide) (by norm_num)⟩

/-- C5: whenever a run returns normally, the returned iteration count is a
non-negative multiple of chunk_size * num_processes: the state is updated
only once per completed full batch. -/
theorem C5_iterations_multiple (W : ℤ) (limit t0 : ℚ) (clock : List (ℚ × ℚ))
    (total : ℕ) (piv : ℚ) (tr : Trace)
    (h : calculate_pi_parallel W limit t0 clock
      = Except.ok (some (total, piv, tr))) :
    (chunk_size * W.toNat) ∣ total := by
  rw [calculate_pi_parallel] at h
  by_cases hW : W < 1
  · rw [if_pos hW] at h
    simp at h
  · rw [if_neg hW] at h
    injection h with h
    obtain ⟨B, _, h2, _⟩ := piLoop_spec clock t0 limit W 0 0 [] (total, piv, tr) h
    exact ⟨B, by simpa [mul_comm] using h2⟩

/-- Witness for C5: a one-batch run with W = 1. -/
theorem C5_witness : (chunk_size * (1 : ℤ).toNat) ∣ chunk_size :=
  C5_iterations_multiple 1 1 0 [(0, 1)] chunk_size (batch_pi 1) [ranges 1]
    (by norm_num [calculate_pi_parallel, piLoop])

/-- C8: determinism with the wall clock factored out: two runs with the
same num_processes that both return normally and completed the same number
of batches (equal issued-range trace lengths) return the identical
pi_value, whatever their clocks and time limits were. -/
theorem C8_deterministic (W : ℤ) (limit1 t01 limit2 t02 : ℚ)
    (clock1 clock2 : List (ℚ × ℚ)) (total1 total2 : ℕ) (piv1 piv2 : ℚ)
    (tr1 tr2 : Trace)
    (h1 : calculate_pi_parallel W limit1 t01 clock1
      = Except.ok (some (total1, piv1, tr1)))
    (h2 : calculate_pi_parallel W limit2 t02 clock2
      = Except.ok (some (total2, piv2, tr2)))
    (hlen : tr1.length = tr2.length) :
    piv1 = piv2 := by
  rw [calculate_pi_parallel] at h1 h2
  by_cases hW : W < 1
  · rw [if_pos hW] at h1
    simp at h1
  · rw [if_neg hW] at h1 h2
    injection h1 with h1
    injection h2 with h2
    obtain ⟨B1, e1, _, p1⟩ :=
      piLoop_spec clock1 t01 limit1 W 0 0 [] (total1, piv1, tr1) h1
    obtain ⟨B2, e2, _, p2⟩ :=
      piLoop_spec clock2 t02 limit2 W 0 0 [] (total2, piv2, tr2) h2
    simp only [List.nil_append] at e1 e2 p1 p2
    have hB1 : tr1.length = B1 := by simp [e1]
    have hB2 : tr2.length = B2 := by simp [e2]
    have hBeq : B1 = B2 := by omega
    rw [p1, p2, hBeq]

/-- Witness for C8: two one-batch runs with different clocks. -/
theorem C8_witness : batch_pi 1 = batch_pi 1 :=
  C8_deterministic 1 1 0 2 5 [(0, 1)] [(5, 7)] chunk_size chunk_size
    (batch_pi 1) (batch_pi 1) [ranges 1] [ranges 1]
    (by norm_num [calculate_pi_parallel, piLoop])
    (by norm_num [calculate_pi_parallel, piLoop])
    rfl

/-- C9 counterexample: chunkSize is not a call parameter of the code; the
chunk length is pinned to the local constant 1000000, so the batch the
code issues differs from the spec's parameterized batch construction at
any other chunkSize, here chunkSize = 2 with one worker. -/
theorem C9_counterexample : ranges 1 ≠ spec_batch_ranges 1 2 0 := by
  have hr : ranges 1 = [(0, (chunk_size : ℤ))] := by
    simp [ranges, List.range_succ]
  have hs : spec_batch_ranges 1 2 0 = [(0, 2)] := by
    simp [spec_batch_ranges, List.range_succ]
  rw [hr, hs]
  simp [chunk_size]

/-- C9 amended: time_limit is a call parameter with default 60, but
chunk_size is a fixed internal constant equal to 1000000 rather than a
parameter; every chunk range ever issued by a normally returning run has
length exactly chunk_size = 1000000. -/
theorem C9_tunables :
    time_limit_default = 60 ∧ chunk_size = 1000000 ∧
    ∀ (W : ℤ) (limit t0 : ℚ) (clock : List (ℚ × ℚ)) (total : ℕ) (piv : ℚ)
      (tr : Trace),
      calculate_pi_parallel W limit t0 clock
        = Except.ok (some (total, piv, tr)) →
      ∀ batch ∈ tr, ∀ rg ∈ batch, rg.2 - rg.1 = (chunk_size : ℤ) := by
  refine ⟨rfl, rfl, ?_⟩
  intro W limit t0 clock total piv tr h batch hbatch rg hrg
  rw [calculate_pi_parallel] at h
  by_cases hW : W < 1
  · rw [if_pos hW] at h
    simp at h
  · rw [if_neg hW] at h
    injection h with h
    obtain ⟨B, e, _, _⟩ := piLoop_spec clock t0 limit W 0 0 [] (total, piv, tr) h
    simp only [List.nil_append] at e
    rw [e] at hbatch
    have hbr : batch = ranges W := List.eq_of_mem_replicate hbatch
    rw [hbr, ranges] at hrg
    obtain ⟨i, _, hi⟩ := List.mem_map.mp hrg
    rw [← hi]
    ring

/-- Witness for C9: the single chunk of a one-batch run with W = 1 has
length chunk_size. -/
theorem C9_witness :
    ((0 : ℤ), (chunk_size : ℤ)).2 - ((0 : ℤ), (chunk_size : ℤ)).1
      = (chunk_size : ℤ) := by
  have hrun : calculate_pi_parallel 1 1 0 [(0, 1)]
      = Except.ok (some (chunk_size, batch_pi 1, [ranges 1])) := by
    norm_num [calculate_pi_parallel, piLoop]
  have hr : ranges 1 = [(0, (chunk_size : ℤ))] := by
    simp [ranges, List.range_succ]
  exact C9_tunables.2.2 1 1 0 [(0, 1)] chunk_size (batch_pi 1) [ranges 1]
    hrun (ranges 1) (by simp) ((0 : ℤ), (chunk_size : ℤ)) (by rw [hr]; simp)

/-- C1: evaluation at the failing input.  With one worker and a clock
letting two batches complete (readings 1, 2, 3, 10 against limit 10), the
run reports total_iterations = 2 * chunk_size but pi_value = batch_pi 1,
the value of the last batch alone: line 34 overwrites pi_value instead of
accumulating a running sum, and the ranges of every batch are identical.
The claim's required value, 4 times the series partial sum over all
iterations counted [0, 2 * chunk_size), is provably different, so the
estimate does not reflect every iteration counted. -/
theorem C1_pi_not_accumulated :
    calculate_pi_parallel 1 10 0 [(1, 2), (3, 10)]
      = Except.ok (some (2 * chunk_size, batch_pi 1, [ranges 1, ranges 1]))
    ∧ batch_pi 1 ≠ 4 * gregory_leibniz_worker 0 (2 * (chunk_size : ℤ)) := by
  constructor
  · norm_num [calculate_pi_parallel, piLoop]
    omega
  · rw [batch_pi_one]
    intro hcontra
    have hsplit := worker_add 0 (chunk_size : ℤ) (2 * (chunk_size : ℤ))
      (Int.natCast_nonneg _) (by omega)
    have hpos := worker_second_chunk_pos
    rw [hsplit] at hcontra
    linarith

/-- C2: evaluation at the failing input.  The cursor of the claim does not
exist in the code: lines 27-28 rebuild the same list of ranges every
batch, so a two-batch run issues the identical range list twice — the
trace is [ranges 1, ranges 1] — and in particular the chunk
(0, chunk_size) is issued in both batches, so every index below chunk_size
is assigned to two different chunks and summed twice. -/
theorem C2_cursor_never_advances :
    calculate_pi_parallel 1 9 0 [(0, 1), (2, 9)]
      = Except.ok (some (2 * chunk_size, batch_pi 1, [ranges 1, ranges 1]))
    ∧ (0, (chunk_size : ℤ)) ∈ ranges 1 := by
  constructor
  · norm_num [calculate_pi_parallel, piLoop]
    omega
  · have hr : ranges 1 = [(0, (chunk_size : ℤ))] := by
      simp [ranges, List.range_succ]
    rw [hr]
    simp
